import Mathlib

/-!
# Verification of the nematus-multisource search and coordination layer

Shallow embedding of the beam-search decoder `gen_sample` (nmt.py) and of the
coordination layer of `translate.py` (`Translator._retrieve_jobs`,
`Translator._translate`, `Translation.get_alignment_json`, and the crash check
performed during the output-queue timeout poll), together with theorems about
the claims of the natural-language specification.

Modelling conventions:
* numpy float arrays become lists over a linear ordered field `R`
  (instantiated with `ℝ` when facts about the real logarithm matter and with
  `ℚ` for concrete executable runs);
* `numpy.log` is the explicit parameter `lg`, instantiated with `Real.log`
  in the claims about logarithms;
* the Theano model functions `f_next` are functional parameters, exactly as
  they are parameters of the Python `gen_sample`;
* `numpy.argpartition(...)[: m]` is an explicit selection parameter `select`;
  the library only guarantees that it returns the indices of the `m` smallest
  candidates (in unspecified order), which the theorems assume through
  `SelectsCount` or instantiate with the concrete `select_min`;
* the embedding fixes the configuration exercised by translate.py:
  `stochastic=False`, `argmax=False`, `return_alignment=False`,
  `return_hyp_graph=False`, `suppress_unk=False`.
-/

namespace Nematus

/-- A per-model decoder step: given the previous target word (`-1` denotes the
beginning-of-sentence marker) and the model's recurrent state, produce the
next-token probability distribution and the updated state.  Embedding of the
`f_next` functions passed to `gen_sample` in nmt.py. -/
def FNext (σ R : Type) : Type := Int → σ → List R × σ

/-- The mutable state of the non-stochastic branch of `gen_sample` in nmt.py:
live hypotheses (`hyp_samples`, `hyp_scores`, `word_probs`, `hyp_states`),
the finished set (`sample`, `sample_score`, `sample_word_probs`) and the
count `dead_k` of finished hypotheses. -/
structure BeamState (σ R : Type) where
  hyp_samples : List (List Nat)
  hyp_scores : List R
  word_probs : List (List R)
  hyp_states : List (List σ)
  sample : List (List Nat)
  sample_score : List R
  sample_word_probs : List (List R)
  dead_k : Nat

/-- The word fed to the decoder for a hypothesis: `-1` (bos) for the empty
hypothesis, otherwise its last token.  Mirrors the maintenance of `next_w`
in nmt.py (`next_w = -1 * numpy.ones(...)` initially, then
`next_w = numpy.array([w[-1] for w in hyp_samples])`). -/
def next_w (hyp : List Nat) : Int :=
  match hyp.getLast? with
  | none => -1
  | some w => (w : Int)

/-- Run every model of the ensemble one step for a single hypothesis,
returning each model's `(distribution, new state)` pair.  Mirrors the
`ret = f_next[i](*inps)` loop of `gen_sample`. -/
def model_outs {σ R : Type} (fnext : List (FNext σ R)) (sts : List σ)
    (hyp : List Nat) : List (List R × σ) :=
  (fnext.zip sts).map (fun fs => fs.1 (next_w hyp) fs.2)

/-- The per-token score contribution of the ensemble: the sum over models of
the log-probability of word `w`.  Embeds `sum(numpy.log(next_p))` from
nmt.py line 1234 for one hypothesis and one word. -/
def sum_log_p {R : Type} [LinearOrderedField R] (lg : R → R)
    (hyp_dists : List (List R)) (w : Nat) : R :=
  (hyp_dists.map (fun d => lg (d.getD w 0))).sum

/-- The combined word probability recorded in the word-probability history:
the arithmetic mean over the models of the probability of word `w`.  Embeds
`probs = sum(next_p) / num_models` from nmt.py line 1236 for one hypothesis
and one word. -/
def comb_prob {R : Type} [LinearOrderedField R]
    (hyp_dists : List (List R)) (w : Nat) : R :=
  (hyp_dists.map (fun d => d.getD w 0)).sum / (hyp_dists.length : R)

/-- The cost of the flattened candidate `j` (hypothesis `j / V`, word
`j % V`): the parent's cumulative score minus the summed log-probabilities.
Embeds `cand_scores = hyp_scores[:, None] - sum(numpy.log(next_p))` followed
by `cand_flat = cand_scores.flatten()` in nmt.py. -/
def cand_score {R : Type} [LinearOrderedField R] (lg : R → R)
    (scores : List R) (dists : List (List (List R))) (V j : Nat) : R :=
  scores.getD (j / V) 0 - sum_log_p lg (dists.getD (j / V) []) (j % V)

/-- One candidate produced by a beam-search step: its token sequence, its
cumulative score, its word-probability history and its per-model states. -/
structure Cand (σ R : Type) where
  toks : List Nat
  score : R
  wp : List R
  sts : List σ

/-- Whether a candidate's last token is the end-of-sequence id 0
(`new_hyp_samples[idx][-1] == 0` in nmt.py). -/
def cand_finished {σ R : Type} (c : Cand σ R) : Bool :=
  c.toks.getLast? == some 0

/-- The guarantee used of the selection primitive
(`cand_flat.argpartition(k - dead_k - 1)[:(k - dead_k)]`): whenever asked for
`m ≤ n` of `n` candidates it returns exactly `m` flat indices. -/
def SelectsCount {R : Type} (select : (Nat → R) → Nat → Nat → List Nat) : Prop :=
  ∀ f n m, m ≤ n → (select f n m).length = m

/-- The per-model outputs of one beam-search step, for every live
hypothesis: `(distribution, new state)` pairs, hypothesis-major. -/
def step_outs {σ R : Type} (fnext : List (FNext σ R)) (st : BeamState σ R) :
    List (List (List R × σ)) :=
  (st.hyp_samples.zip st.hyp_states).map (fun hs => model_outs fnext hs.2 hs.1)

/-- The per-model next-token distributions (`next_p`), hypothesis-major. -/
def step_dists {σ R : Type} (fnext : List (FNext σ R)) (st : BeamState σ R) :
    List (List (List R)) :=
  (step_outs fnext st).map (fun o => o.map Prod.fst)

/-- The updated per-model recurrent states (`next_state`), hypothesis-major. -/
def step_nstates {σ R : Type} (fnext : List (FNext σ R)) (st : BeamState σ R) :
    List (List σ) :=
  (step_outs fnext st).map (fun o => o.map Prod.snd)

/-- The selected flat candidate indices of one step: the embedding of
`ranks_flat = cand_flat.argpartition(k - dead_k - 1)[:(k - dead_k)]`. -/
def step_ranks {σ R : Type} [LinearOrderedField R] (lg : R → R)
    (select : (Nat → R) → Nat → Nat → List Nat)
    (fnext : List (FNext σ R)) (k V : Nat) (st : BeamState σ R) : List Nat :=
  select (fun j => cand_score lg st.hyp_scores (step_dists fnext st) V j)
    (st.hyp_samples.length * V) (k - st.dead_k)

/-- The selected candidates of one step, each extending its parent hypothesis
`j / V` with word `j % V`, with the parent's cost plus the summed
log-probability penalty as its new cumulative cost, the arithmetic-mean word
probability appended to its history, and the parent's updated model states. -/
def step_cands {σ R : Type} [LinearOrderedField R] (lg : R → R)
    (select : (Nat → R) → Nat → Nat → List Nat)
    (fnext : List (FNext σ R)) (k V : Nat) (st : BeamState σ R) :
    List (Cand σ R) :=
  (step_ranks lg select fnext k V st).map (fun j =>
    { toks := st.hyp_samples.getD (j / V) [] ++ [j % V],
      score := cand_score lg st.hyp_scores (step_dists fnext st) V j,
      wp := st.word_probs.getD (j / V) [] ++
        [comb_prob ((step_dists fnext st).getD (j / V) []) (j % V)],
      sts := (step_nstates fnext st).getD (j / V) [] })

/-- One iteration of the non-stochastic beam-search loop of `gen_sample`
(nmt.py lines 1233 through 1322): run every model on every live hypothesis,
score and select `k - dead_k` flattened candidates, extend the selected
hypotheses, and move those ending in the end-of-sequence id 0 to the
finished set. -/
def beam_step {σ R : Type} [LinearOrderedField R] (lg : R → R)
    (select : (Nat → R) → Nat → Nat → List Nat)
    (fnext : List (FNext σ R)) (k V : Nat) (st : BeamState σ R) :
    BeamState σ R :=
  let cands := step_cands lg select fnext k V st
  let fin := cands.filter (fun c => cand_finished c)
  let live := cands.filter (fun c => ! cand_finished c)
  { hyp_samples := live.map Cand.toks,
    hyp_scores := live.map Cand.score,
    word_probs := live.map Cand.wp,
    hyp_states := live.map Cand.sts,
    sample := st.sample ++ fin.map Cand.toks,
    sample_score := st.sample_score ++ fin.map Cand.score,
    sample_word_probs := st.sample_word_probs ++ fin.map Cand.wp,
    dead_k := st.dead_k + fin.length }

/-- The `for ii in xrange(maxlen)` loop of `gen_sample`: after each step the
search stops early when no live hypothesis remains (`new_live_k < 1`) or when
`dead_k >= k`; otherwise it continues until `maxlen` steps have run. -/
def beam_loop {σ R : Type} [LinearOrderedField R] (lg : R → R)
    (select : (Nat → R) → Nat → Nat → List Nat)
    (fnext : List (FNext σ R)) (k V : Nat) :
    Nat → BeamState σ R → BeamState σ R
  | 0, st => st
  | n + 1, st =>
    if (beam_step lg select fnext k V st).hyp_samples.length < 1 ∨
        k ≤ (beam_step lg select fnext k V st).dead_k then
      beam_step lg select fnext k V st
    else beam_loop lg select fnext k V n (beam_step lg select fnext k V st)

/-- The number of live hypotheses `gen_sample` starts with: `k` for
stochastic sampling and `1` otherwise (nmt.py lines 1099 through 1104). -/
def init_live_k (stochastic : Bool) (k : Nat) : Nat :=
  if stochastic then k else 1

/-- The initial hypothesis list `hyp_samples = [[] for i in xrange(live_k)]`. -/
def init_hyp_samples (stochastic : Bool) (k : Nat) : List (List Nat) :=
  List.replicate (init_live_k stochastic k) []

/-- The initial score vector `hyp_scores = numpy.zeros(live_k)`. -/
def init_hyp_scores {R : Type} [LinearOrderedField R]
    (stochastic : Bool) (k : Nat) : List R :=
  List.replicate (init_live_k stochastic k) 0

/-- The initial decoder input `next_w = -1 * numpy.ones((live_k,))`. -/
def init_next_w (stochastic : Bool) (k : Nat) : List Int :=
  List.replicate (init_live_k stochastic k) (-1)

/-- The initial state of a non-stochastic beam search: one empty hypothesis
with score 0, empty word-probability history, the (tiled) initial model
states, an empty finished set and `dead_k = 0`. -/
def init_state {σ R : Type} [LinearOrderedField R] (k : Nat)
    (init_sts : List σ) : BeamState σ R :=
  { hyp_samples := init_hyp_samples false k,
    hyp_scores := init_hyp_scores false k,
    word_probs := List.replicate (init_live_k false k) [],
    hyp_states := List.replicate (init_live_k false k) init_sts,
    sample := [],
    sample_score := [],
    sample_word_probs := [],
    dead_k := 0 }

/-- The non-stochastic, non-argmax branch of `gen_sample`: run the beam loop
for at most `maxlen` steps, then dump every hypothesis still live into the
finished set unmodified (`if not argmax and live_k > 0` in nmt.py).  Returns
`(sample, sample_score, sample_word_probs)`. -/
def gen_sample {σ R : Type} [LinearOrderedField R] (lg : R → R)
    (select : (Nat → R) → Nat → Nat → List Nat)
    (fnext : List (FNext σ R)) (k V maxlen : Nat) (init_sts : List σ) :
    List (List Nat) × List R × List (List R) :=
  if 0 < (beam_loop lg select fnext k V maxlen
      (init_state k init_sts)).hyp_samples.length then
    ((beam_loop lg select fnext k V maxlen (init_state k init_sts)).sample ++
        (beam_loop lg select fnext k V maxlen
          (init_state k init_sts)).hyp_samples,
      (beam_loop lg select fnext k V maxlen
          (init_state k init_sts)).sample_score ++
        (beam_loop lg select fnext k V maxlen
          (init_state k init_sts)).hyp_scores,
      (beam_loop lg select fnext k V maxlen
          (init_state k init_sts)).sample_word_probs ++
        (beam_loop lg select fnext k V maxlen
          (init_state k init_sts)).word_probs)
  else
    ((beam_loop lg select fnext k V maxlen (init_state k init_sts)).sample,
      (beam_loop lg select fnext k V maxlen
        (init_state k init_sts)).sample_score,
      (beam_loop lg select fnext k V maxlen
        (init_state k init_sts)).sample_word_probs)

/-- The bookkeeping invariant of the beam-search state: `dead_k` never
exceeds `k`, the next selection (of `k - dead_k` candidates out of
`live_k * V`) is feasible, the finished lists march in lockstep with
`dead_k`, at most `k` hypotheses are alive or finished, and the live lists
march in lockstep with each other. -/
def StInv {σ R : Type} (k V : Nat) (st : BeamState σ R) : Prop :=
  st.dead_k ≤ k ∧
  k - st.dead_k ≤ st.hyp_samples.length * V ∧
  st.sample.length = st.dead_k ∧
  st.dead_k + st.hyp_samples.length ≤ k ∧
  st.hyp_scores.length = st.hyp_samples.length ∧
  st.word_probs.length = st.hyp_samples.length

/-- Scan a list keeping the smallest value seen so far together with the
position (relative to the original list) where it was first attained.
Auxiliary function for `idx_of_min`. -/
def argmin_aux {R : Type} [LinearOrder R] : List R → R → Nat → Nat → R × Nat
  | [], best, bi, _ => (best, bi)
  | x :: xs, best, bi, cur =>
    if x < best then argmin_aux xs x cur (cur + 1)
    else argmin_aux xs best bi (cur + 1)

/-- The first position of the minimum of a list (0 on the empty list).
Embedding of `numpy.argmin`, which returns the first occurrence of the
minimum value. -/
def idx_of_min {R : Type} [LinearOrder R] : List R → Nat
  | [] => 0
  | x :: xs => (argmin_aux xs x 0 1).2

/-- Repeatedly extract from `rem` the (first) index whose `f`-value is
minimal.  Auxiliary function for `select_min`. -/
def sel_go {R : Type} [LinearOrder R] (f : Nat → R) : Nat → List Nat → List Nat
  | 0, _ => []
  | _ + 1, [] => []
  | m + 1, r :: rs =>
    (r :: rs).getD (idx_of_min ((r :: rs).map f)) 0 ::
      sel_go f m ((r :: rs).eraseIdx (idx_of_min ((r :: rs).map f)))

/-- A deterministic selection function satisfying the guarantee that
`numpy.argpartition(cand_flat, m - 1)[: m]` provides: it returns `m` of the
`n` flat indices whose costs are smallest (here: in nondecreasing cost
order, earliest index first among equals). -/
def select_min {R : Type} [LinearOrder R] (f : Nat → R) (n m : Nat) :
    List Nat :=
  sel_go f m (List.range n)

/-- Overwrite-or-append insertion into a Python dict modelled as an
association list in insertion order (`self._retrieved_translations[request_id][idx] = output_item`). -/
def dict_insert {α : Type} (d : List (Nat × α)) (i : Nat) (x : α) :
    List (Nat × α) :=
  if (d.lookup i).isSome then
    d.map (fun p => if p.1 = i then (i, x) else p)
  else d ++ [(i, x)]

/-- The result buffer `self._retrieved_translations`, a
`defaultdict(dict)` modelled as a total function from request ids to
association lists, empty by default. -/
def buf_insert {α : Type} (buf : Nat → List (Nat × α)) (r i : Nat) (x : α) :
    Nat → List (Nat × α) :=
  fun r' => if r' = r then dict_insert (buf r) i x else buf r'

/-- Eviction of one request's entry from the result buffer
(`del self._retrieved_translations[request_id]`). -/
def buf_erase {α : Type} (buf : Nat → List (Nat × α)) (r : Nat) :
    Nat → List (Nat × α) :=
  fun r' => if r' = r then [] else buf r'

/-- The receive loop of `Translator._retrieve_jobs` (translate.py lines 567
through 593): while the buffer holds fewer than `n` results for the current
request id, pull the next `(request_id, idx, output_item)` message from the
output queue, store it under its own request id and sequence index, and
continue with the pulled message's request id (the Python code rebinds
`request_id` on arrival).  `none` models blocking forever on an exhausted
queue. -/
def retrieve_loop {α : Type} (n : Nat) (msgs : List (Nat × Nat × α))
    (buf : Nat → List (Nat × α)) (rid : Nat) :
    Option ((Nat → List (Nat × α)) × Nat) :=
  if n ≤ (buf rid).length then some (buf, rid)
  else
    match msgs with
    | [] => none
    | (r, i, x) :: rest => retrieve_loop n rest (buf_insert buf r i x) r

/-- The whole of `Translator._retrieve_jobs`: run the receive loop starting
from an empty buffer, yield the buffered results for sequence indices
`0, 1, ..., n - 1` in that order, and evict the request's buffer entry.
Returns the yielded items and the buffer left behind. -/
def retrieve_jobs {α : Type} (n : Nat) (msgs : List (Nat × Nat × α))
    (rid : Nat) : Option (List (Option α) × (Nat → List (Nat × α))) :=
  match retrieve_loop n msgs (fun _ => []) rid with
  | none => none
  | some (buf, rid') =>
    some ((List.range n).map (fun i => (buf rid').lookup i), buf_erase buf rid')

/-- A snapshot of one worker process as observed by the coordinator during a
timeout poll: its pid, whether `is_alive()` holds, and its `exitcode`. -/
structure WorkerObs where
  pid : Nat
  alive : Bool
  exitcode : Int

/-- What the coordinator does after an output-queue timeout: either resume
waiting, or abort fatally, recording the crashed worker's pid and exit code,
the pids of all the worker processes it terminates, and the coordinator's
own exit status. -/
inductive PollOutcome
  | wait : PollOutcome
  | fatal : Nat → Int → List Nat → Nat → PollOutcome

/-- The crash test applied to each worker in the timeout branch:
`not self._processes[midx].is_alive() and self._processes[midx].exitcode != 0`. -/
def crashed (w : WorkerObs) : Bool :=
  !w.alive && w.exitcode != 0

/-- The timeout branch of `Translator._retrieve_jobs` (translate.py lines
576 through 590): scan the workers in order; at the first crashed one,
terminate every worker process, log its pid and exit code and exit with
status 1; if none crashed, go back to waiting on the queue. -/
def timeout_poll (procs : List WorkerObs) : PollOutcome :=
  match procs.find? crashed with
  | some w => PollOutcome.fatal w.pid w.exitcode (procs.map WorkerObs.pid) 1
  | none => PollOutcome.wait

/-- The fields of a `Translation` (translate.py) that `get_alignment_json`
reads.  Weights keep an abstract type `W`; Python's `str(weight)` is the
parameter `wstr` of `get_alignment_json`. -/
structure Translation (W : Type) where
  source_words : List String
  target_words : List String
  sentence_id : Nat
  hypothesis_id : Option Nat
  alignment : List (List W)

/-- Embedding of `Translation.get_alignment_json` (translate.py lines 81
through 113), single-source case (`aux is None`): append `"</s>"` to both
token sequences, set `tid` to `sentence_id + hypothesis_id` when a
hypothesis id is present, and emit one
`(target_token, source_token, str(weight), sentence_id, tid)` link per
(target position, source position) pair. -/
def get_alignment_json {W : Type} (wstr : W → String) (t : Translation W) :
    List (String × String × String × Nat × Nat) :=
  let source_tokens := t.source_words ++ ["</s>"]
  let target_tokens := t.target_words ++ ["</s>"]
  let tid := match t.hypothesis_id with
    | some h => t.sentence_id + h
    | none => t.sentence_id
  (t.alignment.enum.map (fun ta =>
    ta.2.enum.map (fun sw =>
      (target_tokens.getD ta.1 "", source_tokens.getD sw.1 "",
        wstr sw.2, t.sentence_id, tid)))).flatten

/-- Length normalization in `Translator._translate` (translate.py lines 410
through 413): when `normalization_alpha` is nonzero (Python truthiness),
divide each hypothesis's score by `len(sample) ** normalization_alpha`;
`rpow_fn` embeds the float power `len(s) ** alpha`. -/
def adjusted_scores {R : Type} [LinearOrderedField R] (alpha : R)
    (rpow_fn : Nat → R → R) (samples : List (List Nat)) (scores : List R) :
    List R :=
  if alpha = 0 then scores
  else List.zipWith (fun sc sa => sc / rpow_fn sa.length alpha) scores samples

/-- The single-best branch of `Translator._translate` (translate.py lines
414 through 420, `nbest` false): pick `sidx = numpy.argmin(score)` over the
length-normalized scores and return that hypothesis's sample, score, word
probabilities and its alignment from every source's alignment list. -/
def translate_best {R A : Type} [LinearOrderedField R] (alpha : R)
    (rpow_fn : Nat → R → R) (samples : List (List Nat)) (scores : List R)
    (wps : List (List R)) (aligns : List (List A)) (a0 : A) :
    List Nat × R × List R × List A :=
  let score := adjusted_scores alpha rpow_fn samples scores
  let sidx := idx_of_min score
  (samples.getD sidx [], score.getD sidx 0, wps.getD sidx [],
    aligns.map (fun al => al.getD sidx a0))

end Nematus

namespace Nematus

/-- Splitting a list by a Boolean predicate preserves its length. -/
theorem length_filter_add_length_filter_not {α : Type} (p : α → Bool)
    (l : List α) :
    (l.filter p).length + (l.filter (fun x => ! p x)).length = l.length := by
  induction l with
  | nil => rfl
  | cons a l ih => cases h : p a <;> simp [List.filter_cons, h] <;> omega

/-- The finished count after one step: the previous count plus the number of
selected candidates ending in the end-of-sequence id. -/
theorem beam_step_dead_k {σ R : Type} [LinearOrderedField R] (lg : R → R)
    (select : (Nat → R) → Nat → Nat → List Nat)
    (fnext : List (FNext σ R)) (k V : Nat) (st : BeamState σ R) :
    (beam_step lg select fnext k V st).dead_k =
      st.dead_k +
        ((step_cands lg select fnext k V st).filter
          (fun c => cand_finished c)).length := rfl

/-- The live hypotheses after one step: the selected candidates not ending
in the end-of-sequence id. -/
theorem beam_step_hyp_samples {σ R : Type} [LinearOrderedField R]
    (lg : R → R) (select : (Nat → R) → Nat → Nat → List Nat)
    (fnext : List (FNext σ R)) (k V : Nat) (st : BeamState σ R) :
    (beam_step lg select fnext k V st).hyp_samples =
      ((step_cands lg select fnext k V st).filter
        (fun c => ! cand_finished c)).map Cand.toks := rfl

/-- The finished sample list only grows by appending during a step. -/
theorem beam_step_sample {σ R : Type} [LinearOrderedField R] (lg : R → R)
    (select : (Nat → R) → Nat → Nat → List Nat)
    (fnext : List (FNext σ R)) (k V : Nat) (st : BeamState σ R) :
    (beam_step lg select fnext k V st).sample =
      st.sample ++
        ((step_cands lg select fnext k V st).filter
          (fun c => cand_finished c)).map Cand.toks := rfl

/-- The finished score list only grows by appending during a step. -/
theorem beam_step_sample_score {σ R : Type} [LinearOrderedField R]
    (lg : R → R) (select : (Nat → R) → Nat → Nat → List Nat)
    (fnext : List (FNext σ R)) (k V : Nat) (st : BeamState σ R) :
    (beam_step lg select fnext k V st).sample_score =
      st.sample_score ++
        ((step_cands lg select fnext k V st).filter
          (fun c => cand_finished c)).map Cand.score := rfl

/-- The finished word-probability list only grows by appending during a
step. -/
theorem beam_step_sample_word_probs {σ R : Type} [LinearOrderedField R]
    (lg : R → R) (select : (Nat → R) → Nat → Nat → List Nat)
    (fnext : List (FNext σ R)) (k V : Nat) (st : BeamState σ R) :
    (beam_step lg select fnext k V st).sample_word_probs =
      st.sample_word_probs ++
        ((step_cands lg select fnext k V st).filter
          (fun c => cand_finished c)).map Cand.wp := rfl

/-- Under the selection-count guarantee a feasible step produces exactly
`k - dead_k` candidates. -/
theorem step_cands_length {σ R : Type} [LinearOrderedField R] (lg : R → R)
    (select : (Nat → R) → Nat → Nat → List Nat)
    (fnext : List (FNext σ R)) (k V : Nat) (st : BeamState σ R)
    (Hsel : SelectsCount select)
    (h2 : k - st.dead_k ≤ st.hyp_samples.length * V) :
    (step_cands lg select fnext k V st).length = k - st.dead_k := by
  unfold step_cands step_ranks
  rw [List.length_map]
  exact Hsel _ _ _ h2

/-- One feasible step preserves the bookkeeping invariant and leaves
exactly `k` hypotheses alive or finished. -/
theorem beam_step_counts {σ R : Type} [LinearOrderedField R] (lg : R → R)
    (select : (Nat → R) → Nat → Nat → List Nat)
    (fnext : List (FNext σ R)) (k V : Nat)
    (Hsel : SelectsCount select) (hV : 1 ≤ V) (st : BeamState σ R)
    (h : StInv k V st) :
    StInv k V (beam_step lg select fnext k V st) ∧
      (beam_step lg select fnext k V st).dead_k +
        (beam_step lg select fnext k V st).hyp_samples.length = k := by
  obtain ⟨h1, h2, h3, h4, h5, h6⟩ := h
  have hc := step_cands_length lg select fnext k V st Hsel h2
  have hp := length_filter_add_length_filter_not (fun c => cand_finished c)
    (step_cands lg select fnext k V st)
  set F := ((step_cands lg select fnext k V st).filter
    (fun c => cand_finished c)).length with hF
  set L := ((step_cands lg select fnext k V st).filter
    (fun c => ! cand_finished c)).length with hL
  have hmul : L ≤ L * V := by
    have := Nat.mul_le_mul_left L hV
    simpa using this
  refine ⟨⟨?_, ?_, ?_, ?_, ?_, ?_⟩, ?_⟩
  · rw [beam_step_dead_k]; omega
  · rw [beam_step_dead_k, beam_step_hyp_samples, List.length_map]
    have : k - (st.dead_k + F) ≤ L := by omega
    exact this.trans hmul
  · show (beam_step lg select fnext k V st).sample.length = _
    rw [beam_step_sample, beam_step_dead_k, List.length_append,
      List.length_map, h3]
  · rw [beam_step_dead_k, beam_step_hyp_samples, List.length_map]; omega
  · show (List.map Cand.score _).length = (List.map Cand.toks _).length
    simp
  · show (List.map Cand.wp _).length = (List.map Cand.toks _).length
    simp
  · rw [beam_step_dead_k, beam_step_hyp_samples, List.length_map]; omega

/-- The beam-search loop preserves the bookkeeping invariant. -/
theorem beam_loop_inv {σ R : Type} [LinearOrderedField R] (lg : R → R)
    (select : (Nat → R) → Nat → Nat → List Nat)
    (fnext : List (FNext σ R)) (k V : Nat)
    (Hsel : SelectsCount select) (hV : 1 ≤ V) :
    ∀ (n : Nat) (st : BeamState σ R), StInv k V st →
      StInv k V (beam_loop lg select fnext k V n st) := by
  intro n
  induction n with
  | zero => intro st h; exact h
  | succ n ih =>
    intro st h
    have hs := beam_step_counts lg select fnext k V Hsel hV st h
    rw [beam_loop]
    split
    · exact hs.1
    · exact ih _ hs.1

/-- Once every hypothesis is alive or finished (which holds after the first
step), the loop keeps it that way. -/
theorem beam_loop_exact {σ R : Type} [LinearOrderedField R] (lg : R → R)
    (select : (Nat → R) → Nat → Nat → List Nat)
    (fnext : List (FNext σ R)) (k V : Nat)
    (Hsel : SelectsCount select) (hV : 1 ≤ V) :
    ∀ (n : Nat) (st : BeamState σ R), StInv k V st →
      st.dead_k + st.hyp_samples.length = k →
      (beam_loop lg select fnext k V n st).dead_k +
        (beam_loop lg select fnext k V n st).hyp_samples.length = k := by
  intro n
  induction n with
  | zero => intro st _ he; exact he
  | succ n ih =>
    intro st h _
    have hs := beam_step_counts lg select fnext k V Hsel hV st h
    rw [beam_loop]
    split
    · exact hs.2
    · exact ih _ hs.1 hs.2

/-- After at least one step, exactly `k` hypotheses are alive or finished. -/
theorem beam_loop_succ_exact {σ R : Type} [LinearOrderedField R] (lg : R → R)
    (select : (Nat → R) → Nat → Nat → List Nat)
    (fnext : List (FNext σ R)) (k V : Nat)
    (Hsel : SelectsCount select) (hV : 1 ≤ V) (n : Nat)
    (st : BeamState σ R) (h : StInv k V st) :
    (beam_loop lg select fnext k V (n + 1) st).dead_k +
      (beam_loop lg select fnext k V (n + 1) st).hyp_samples.length = k := by
  have hs := beam_step_counts lg select fnext k V Hsel hV st h
  rw [beam_loop]
  split
  · exact hs.2
  · exact beam_loop_exact lg select fnext k V Hsel hV n _ hs.1 hs.2

/-- The finished lists of the loop extend the finished lists of its starting
state: entries of the finished set are only ever appended to, never
modified. -/
theorem beam_loop_finished_extend {σ R : Type} [LinearOrderedField R]
    (lg : R → R) (select : (Nat → R) → Nat → Nat → List Nat)
    (fnext : List (FNext σ R)) (k V : Nat) :
    ∀ (n : Nat) (st : BeamState σ R), ∃ t u v,
      (beam_loop lg select fnext k V n st).sample = st.sample ++ t ∧
      (beam_loop lg select fnext k V n st).sample_score =
        st.sample_score ++ u ∧
      (beam_loop lg select fnext k V n st).sample_word_probs =
        st.sample_word_probs ++ v := by
  intro n
  induction n with
  | zero =>
    intro st
    exact ⟨[], [], [], by simp [beam_loop]⟩
  | succ n ih =>
    intro st
    rw [beam_loop]
    split
    · exact ⟨_, _, _, beam_step_sample lg select fnext k V st,
        beam_step_sample_score lg select fnext k V st,
        beam_step_sample_word_probs lg select fnext k V st⟩
    · obtain ⟨t, u, v, ht, hu, hv⟩ := ih (beam_step lg select fnext k V st)
      refine ⟨((step_cands lg select fnext k V st).filter
          (fun c => cand_finished c)).map Cand.toks ++ t,
        ((step_cands lg select fnext k V st).filter
          (fun c => cand_finished c)).map Cand.score ++ u,
        ((step_cands lg select fnext k V st).filter
          (fun c => cand_finished c)).map Cand.wp ++ v, ?_, ?_, ?_⟩
      · rw [ht, beam_step_sample, List.append_assoc]
      · rw [hu, beam_step_sample_score, List.append_assoc]
      · rw [hv, beam_step_sample_word_probs, List.append_assoc]

/-- The initial state satisfies the bookkeeping invariant whenever the beam
fits in the vocabulary. -/
theorem init_StInv {σ R : Type} [LinearOrderedField R] (k V : Nat)
    (sts : List σ) (hk : 1 ≤ k) (hkV : k ≤ V) :
    StInv k V (init_state k sts : BeamState σ R) := by
  refine ⟨?_, ?_, ?_, ?_, ?_, ?_⟩ <;>
    simp [init_state, init_hyp_samples, init_hyp_scores, init_live_k,
      StInv] <;> omega

/-- C3 counterexample: a non-stochastic beam search with beam width `k = 2`
starts with one empty hypothesis, not with `k = 2` empty hypotheses. -/
theorem C3_counterexample : (init_hyp_samples false 2).length ≠ 2 := by
  decide

/-- C3 (amended): at the start of every non-stochastic beam search the live
hypothesis set consists of exactly one empty hypothesis with cumulative cost
0 and start token `-1`; the beam only widens towards `k` at the first
expansion step. -/
theorem C3_single_initial_hypothesis (k : Nat) :
    init_hyp_samples false k = [[]] ∧
    (init_hyp_scores false k : List ℚ) = [0] ∧
    init_next_w false k = [-1] ∧
    init_live_k false k = 1 := by
  refine ⟨rfl, rfl, rfl, rfl⟩

/-- C5: throughout every non-stochastic beam search, the number of live
hypotheses plus `dead_k` stays at most `k` after every step, and the
finished set is append-only: once a hypothesis (with its score and its
word-probability history) has been appended it is never modified by later
steps. -/
theorem C5_beam_invariant {σ R : Type} [LinearOrderedField R] (lg : R → R)
    (select : (Nat → R) → Nat → Nat → List Nat)
    (fnext : List (FNext σ R)) (k V j : Nat) (init_sts : List σ)
    (st : BeamState σ R)
    (Hsel : SelectsCount select) (hk : 1 ≤ k) (hkV : k ≤ V) :
    ((beam_loop lg select fnext k V j (init_state k init_sts)).dead_k +
      (beam_loop lg select fnext k V j
        (init_state k init_sts)).hyp_samples.length ≤ k) ∧
    (∃ t u v,
      (beam_loop lg select fnext k V j st).sample = st.sample ++ t ∧
      (beam_loop lg select fnext k V j st).sample_score =
        st.sample_score ++ u ∧
      (beam_loop lg select fnext k V j st).sample_word_probs =
        st.sample_word_probs ++ v) := by
  have hV : 1 ≤ V := hk.trans hkV
  have h0 : StInv k V (init_state k init_sts : BeamState σ R) :=
    init_StInv k V init_sts hk hkV
  refine ⟨?_, beam_loop_finished_extend lg select fnext k V j st⟩
  exact (beam_loop_inv lg select fnext k V Hsel hV j _ h0).2.2.2.1

/-- C5 witness: the invariant instantiated on a concrete one-model run with
beam width 1 and vocabulary size 1. -/
theorem C5_beam_invariant_witness :
    SelectsCount (fun (_ : Nat → ℚ) (_ m : Nat) => List.range m) ∧
    ((beam_loop (fun _ => (0 : ℚ)) (fun _ _ m => List.range m)
        ([fun _ _ => (([1, 0] : List ℚ), ())] : List (FNext Unit ℚ)) 1 1 2
        (init_state 1 [()])).dead_k +
      (beam_loop (fun _ => (0 : ℚ)) (fun _ _ m => List.range m)
        ([fun _ _ => (([1, 0] : List ℚ), ())] : List (FNext Unit ℚ)) 1 1 2
        (init_state 1 [()])).hyp_samples.length ≤ 1) ∧
    (∃ t u v,
      (beam_loop (fun _ => (0 : ℚ)) (fun _ _ m => List.range m)
        ([fun _ _ => (([1, 0] : List ℚ), ())] : List (FNext Unit ℚ)) 1 1 2
        (init_state 1 [()])).sample =
        (init_state 1 [()] : BeamState Unit ℚ).sample ++ t ∧
      (beam_loop (fun _ => (0 : ℚ)) (fun _ _ m => List.range m)
        ([fun _ _ => (([1, 0] : List ℚ), ())] : List (FNext Unit ℚ)) 1 1 2
        (init_state 1 [()])).sample_score =
        (init_state 1 [()] : BeamState Unit ℚ).sample_score ++ u ∧
      (beam_loop (fun _ => (0 : ℚ)) (fun _ _ m => List.range m)
        ([fun _ _ => (([1, 0] : List ℚ), ())] : List (FNext Unit ℚ)) 1 1 2
        (init_state 1 [()])).sample_word_probs =
        (init_state 1 [()] : BeamState Unit ℚ).sample_word_probs ++ v) := by
  have hsel : SelectsCount (fun (_ : Nat → ℚ) (_ m : Nat) => List.range m) := by
    intro f n m _
    simp
  have h := C5_beam_invariant (fun _ => (0 : ℚ)) (fun _ _ m => List.range m)
    ([fun _ _ => (([1, 0] : List ℚ), ())] : List (FNext Unit ℚ)) 1 1 2 [()]
    (init_state 1 [()]) hsel (le_refl 1) (le_refl 1)
  exact ⟨hsel, h.1, h.2⟩

/-- C4 (amended): the search stops after the step in which `dead_k` reaches
`k` or the live set empties, or else after `maxlen` steps, and any
hypotheses still live are then appended to the finished set with their
token sequences, costs and word-probability histories unmodified.  With
`maxlen ≥ 1` and `k ≤ vocabulary size`, the eos-finished count plus the
live count equals `k` exactly, and the returned finished list always has
length exactly `k` — but the eos-finished count alone can be 0 when
`maxlen` is reached first, so `len(finished) ≥ 1` does not hold for the
eos-finished set. -/
theorem C4_finished_accounting {σ R : Type} [LinearOrderedField R]
    (lg : R → R) (select : (Nat → R) → Nat → Nat → List Nat)
    (fnext : List (FNext σ R)) (k V maxlen : Nat) (init_sts : List σ)
    (Hsel : SelectsCount select) (hk : 1 ≤ k) (hkV : k ≤ V)
    (hml : 1 ≤ maxlen) :
    ((gen_sample lg select fnext k V maxlen init_sts).1 =
      (beam_loop lg select fnext k V maxlen (init_state k init_sts)).sample ++
        (beam_loop lg select fnext k V maxlen
          (init_state k init_sts)).hyp_samples) ∧
    ((gen_sample lg select fnext k V maxlen init_sts).2.1 =
      (beam_loop lg select fnext k V maxlen
          (init_state k init_sts)).sample_score ++
        (beam_loop lg select fnext k V maxlen
          (init_state k init_sts)).hyp_scores) ∧
    ((gen_sample lg select fnext k V maxlen init_sts).2.2 =
      (beam_loop lg select fnext k V maxlen
          (init_state k init_sts)).sample_word_probs ++
        (beam_loop lg select fnext k V maxlen
          (init_state k init_sts)).word_probs) ∧
    ((beam_loop lg select fnext k V maxlen (init_state k init_sts)).dead_k +
      (beam_loop lg select fnext k V maxlen
        (init_state k init_sts)).hyp_samples.length = k) ∧
    ((gen_sample lg select fnext k V maxlen init_sts).1.length = k) := by
  have hV : 1 ≤ V := hk.trans hkV
  have h0 : StInv k V (init_state k init_sts : BeamState σ R) :=
    init_StInv k V init_sts hk hkV
  have hinv := beam_loop_inv lg select fnext k V Hsel hV maxlen _ h0
  obtain ⟨m, rfl⟩ : ∃ m, maxlen = m + 1 := ⟨maxlen - 1, by omega⟩
  have hex := beam_loop_succ_exact lg select fnext k V Hsel hV m
    (init_state k init_sts) h0
  have hflush :
      (gen_sample lg select fnext k V (m + 1) init_sts).1 =
        (beam_loop lg select fnext k V (m + 1)
          (init_state k init_sts)).sample ++
          (beam_loop lg select fnext k V (m + 1)
            (init_state k init_sts)).hyp_samples ∧
      (gen_sample lg select fnext k V (m + 1) init_sts).2.1 =
        (beam_loop lg select fnext k V (m + 1)
          (init_state k init_sts)).sample_score ++
          (beam_loop lg select fnext k V (m + 1)
            (init_state k init_sts)).hyp_scores ∧
      (gen_sample lg select fnext k V (m + 1) init_sts).2.2 =
        (beam_loop lg select fnext k V (m + 1)
          (init_state k init_sts)).sample_word_probs ++
          (beam_loop lg select fnext k V (m + 1)
            (init_state k init_sts)).word_probs := by
    by_cases hl : 0 < (beam_loop lg select fnext k V (m + 1)
        (init_state k init_sts)).hyp_samples.length
    · rw [gen_sample, if_pos hl]
      exact ⟨rfl, rfl, rfl⟩
    · have hnil : (beam_loop lg select fnext k V (m + 1)
          (init_state k init_sts)).hyp_samples = [] := by
        have := Nat.eq_zero_of_not_pos hl
        exact List.length_eq_zero.mp this
      have hs0 : (beam_loop lg select fnext k V (m + 1)
          (init_state k init_sts)).hyp_scores = [] := by
        have hlen := hinv.2.2.2.2.1
        rw [hnil] at hlen
        exact List.length_eq_zero.mp hlen
      have hw0 : (beam_loop lg select fnext k V (m + 1)
          (init_state k init_sts)).word_probs = [] := by
        have hlen := hinv.2.2.2.2.2
        rw [hnil] at hlen
        exact List.length_eq_zero.mp hlen
      rw [gen_sample, if_neg hl, hnil, hs0, hw0]
      simp
  refine ⟨hflush.1, hflush.2.1, hflush.2.2, hex, ?_⟩
  rw [hflush.1, List.length_append]
  have hsl := hinv.2.2.1
  omega

/-- C4 witness: the accounting instantiated on a concrete one-model run
with beam width 1 and vocabulary size 1. -/
theorem C4_finished_accounting_witness :
    SelectsCount (fun (_ : Nat → ℚ) (_ m : Nat) => List.range m) ∧
    ((gen_sample (fun _ => (0 : ℚ)) (fun _ _ m => List.range m)
      ([fun _ _ => (([1, 0] : List ℚ), ())] : List (FNext Unit ℚ)) 1 1 2
      [()]).1.length = 1) := by
  have hsel : SelectsCount (fun (_ : Nat → ℚ) (_ m : Nat) => List.range m) := by
    intro f n m _
    simp
  have h := C4_finished_accounting (fun _ => (0 : ℚ))
    (fun _ _ m => List.range m)
    ([fun _ _ => (([1, 0] : List ℚ), ())] : List (FNext Unit ℚ)) 1 1 2 [()]
    hsel (le_refl 1) (le_refl 1) (by omega)
  exact ⟨hsel, h.2.2.2.2⟩

/-- On the two candidate costs of the concrete counterexample run, the
non-eos token 1 (probability 3/4) is strictly cheaper than the
end-of-sequence token 0 (probability 1/4). -/
theorem cex_cost_lt :
    cand_score Real.log [(0 : ℝ)] [[[1/4, 3/4]]] 2 1 <
      cand_score Real.log [(0 : ℝ)] [[[1/4, 3/4]]] 2 0 := by
  have hlog : Real.log ((1 : ℝ)/4) < Real.log ((3 : ℝ)/4) :=
    Real.log_lt_log (by norm_num) (by norm_num)
  simp only [cand_score, sum_log_p, List.map, List.sum_cons, List.sum_nil]
  norm_num [List.getD]
  linarith

/-- In the counterexample run the selection picks flat index 1 (the non-eos
token of the single live hypothesis). -/
theorem cex_ranks :
    step_ranks Real.log select_min
      ([fun _ _ => (([1/4, 3/4] : List ℝ), ())] : List (FNext Unit ℝ)) 1 2
      (init_state 1 [()]) = [1] := by
  show select_min
    (fun j => cand_score Real.log [(0 : ℝ)] [[[1/4, 3/4]]] 2 j) 2 1 = [1]
  show sel_go
    (fun j => cand_score Real.log [(0 : ℝ)] [[[1/4, 3/4]]] 2 j) 1 [0, 1] = [1]
  rw [sel_go]
  have hidx : idx_of_min
      ([0, 1].map (fun j => cand_score Real.log [(0 : ℝ)] [[[1/4, 3/4]]] 2 j))
      = 1 := by
    show (argmin_aux [cand_score Real.log [(0 : ℝ)] [[[1/4, 3/4]]] 2 1]
      (cand_score Real.log [(0 : ℝ)] [[[1/4, 3/4]]] 2 0) 0 1).2 = 1
    rw [argmin_aux, if_pos cex_cost_lt]
    rfl
  rw [hidx]
  rfl

/-- C4 counterexample: with `k = 1`, `maxlen = 1`, vocabulary `{0, 1}` and a
single model that always assigns probability 1/4 to the end-of-sequence id
0 and 3/4 to token 1, the search reaches `maxlen` with one live hypothesis
and an empty finished set, so `len(finished) ≥ 1` fails for the set of
hypotheses finished by emitting the end-of-sequence id. -/
theorem C4_counterexample :
    ¬ (1 ≤ (beam_loop Real.log select_min
        ([fun _ _ => (([1/4, 3/4] : List ℝ), ())] : List (FNext Unit ℝ)) 1 2 1
        (init_state 1 [()])).dead_k) ∧
    (beam_loop Real.log select_min
      ([fun _ _ => (([1/4, 3/4] : List ℝ), ())] : List (FNext Unit ℝ)) 1 2 1
      (init_state 1 [()])).hyp_samples = [[1]] := by
  have hcands : step_cands Real.log select_min
      ([fun _ _ => (([1/4, 3/4] : List ℝ), ())] : List (FNext Unit ℝ)) 1 2
      (init_state 1 [()]) =
      [{ toks := [1],
         score := cand_score Real.log [(0 : ℝ)] [[[1/4, 3/4]]] 2 1,
         wp := [comb_prob [[(1/4 : ℝ), 3/4]] 1],
         sts := [()] }] := by
    unfold step_cands
    rw [cex_ranks]
    rfl
  have hsamp : (beam_step Real.log select_min
      ([fun _ _ => (([1/4, 3/4] : List ℝ), ())] : List (FNext Unit ℝ)) 1 2
      (init_state 1 [()])).hyp_samples = [[1]] := by
    rw [beam_step_hyp_samples, hcands]
    rfl
  have hdead : (beam_step Real.log select_min
      ([fun _ _ => (([1/4, 3/4] : List ℝ), ())] : List (FNext Unit ℝ)) 1 2
      (init_state 1 [()])).dead_k = 0 := by
    rw [beam_step_dead_k, hcands]
    rfl
  have hloop : beam_loop Real.log select_min
      ([fun _ _ => (([1/4, 3/4] : List ℝ), ())] : List (FNext Unit ℝ)) 1 2 1
      (init_state 1 [()]) =
      beam_step Real.log select_min
        ([fun _ _ => (([1/4, 3/4] : List ℝ), ())] : List (FNext Unit ℝ)) 1 2
        (init_state 1 [()]) := by
    show (if (beam_step Real.log select_min
        ([fun _ _ => (([1/4, 3/4] : List ℝ), ())] : List (FNext Unit ℝ)) 1 2
        (init_state 1 [()])).hyp_samples.length < 1 ∨
        1 ≤ (beam_step Real.log select_min
          ([fun _ _ => (([1/4, 3/4] : List ℝ), ())] : List (FNext Unit ℝ)) 1 2
          (init_state 1 [()])).dead_k then
        beam_step Real.log select_min
          ([fun _ _ => (([1/4, 3/4] : List ℝ), ())] : List (FNext Unit ℝ)) 1 2
          (init_state 1 [()])
      else beam_loop Real.log select_min
        ([fun _ _ => (([1/4, 3/4] : List ℝ), ())] : List (FNext Unit ℝ)) 1 2 0
        (beam_step Real.log select_min
          ([fun _ _ => (([1/4, 3/4] : List ℝ), ())] : List (FNext Unit ℝ)) 1 2
          (init_state 1 [()]))) = _
    rw [hsamp, hdead]
    norm_num
    rfl
  rw [hloop, hsamp, hdead]
  exact ⟨by omega, rfl⟩

/-- A list of nonpositive reals has nonpositive sum. -/
theorem sum_nonpos_of_mem {l : List ℝ} (h : ∀ x ∈ l, x ≤ 0) : l.sum ≤ 0 := by
  induction l with
  | nil => simp
  | cons x xs ih =>
    simp only [List.sum_cons]
    have hx := h x (by simp)
    have hxs := ih (fun y hy => h y (by simp [hy]))
    linarith

/-- The summed per-model log-probabilities equal the log of the product of
the per-model probabilities (when none of them is zero). -/
theorem sum_log_p_eq_log_prod (ds : List (List ℝ)) (w : Nat)
    (h : ∀ d ∈ ds, d.getD w 0 ≠ 0) :
    sum_log_p Real.log ds w =
      Real.log ((ds.map (fun d => d.getD w 0)).prod) := by
  induction ds with
  | nil => simp [sum_log_p]
  | cons d ds ih =>
    have hd : d.getD w 0 ≠ 0 := h d (by simp)
    have hds : ∀ d' ∈ ds, d'.getD w 0 ≠ 0 :=
      fun d' hd' => h d' (by simp [hd'])
    have hprod : ((ds.map (fun d => d.getD w 0)).prod) ≠ 0 := by
      apply List.prod_ne_zero
      intro hx
      obtain ⟨d', hd', he⟩ := List.mem_map.mp hx
      exact hds d' hd' he
    simp only [sum_log_p, List.map, List.sum_cons, List.prod_cons]
    rw [Real.log_mul hd hprod]
    have hih := ih hds
    simp only [sum_log_p] at hih
    rw [hih]

/-- C1 counterexample: on a 2-model ensemble in which both models assign
probability 1/2 to token 0, the candidate cost computed by the code
(`hyp_scores - sum(numpy.log(next_p))`) differs from the cost the claim
prescribes (parent cost minus the log of the arithmetic-mean
distribution). -/
theorem C1_counterexample :
    cand_score Real.log [(0 : ℝ)] [[[1/2, 1/2], [1/2, 1/2]]] 2 0 ≠
      (0 : ℝ) - Real.log (comb_prob [[(1/2 : ℝ), 1/2], [1/2, 1/2]] 0) := by
  intro h
  simp only [cand_score, sum_log_p, comb_prob, List.map, List.sum_cons,
    List.sum_nil] at h
  norm_num [List.getD] at h

/-- C1 (amended): the effective next-token log-probability used for
candidate scoring is the sum over the models of the per-model
log-probabilities — the log of the product of the predicted distributions —
while the arithmetic mean of the distributions is what gets recorded in the
word-probability history; for a 2-model ensemble in which both models
return the same distribution, that recorded mean equals either model's
distribution exactly. -/
theorem C1_sum_of_logs (scores : List ℝ) (dists : List (List (List ℝ)))
    (V j : Nat) (d : List ℝ)
    (hpos : ∀ p ∈ dists.getD (j / V) [], p.getD (j % V) 0 ≠ 0) :
    cand_score Real.log scores dists V j =
      scores.getD (j / V) 0 -
        Real.log (((dists.getD (j / V) []).map
          (fun p => p.getD (j % V) 0)).prod) ∧
    comb_prob [d, d] (j % V) = d.getD (j % V) 0 := by
  constructor
  · rw [cand_score, sum_log_p_eq_log_prod _ _ hpos]
  · simp only [comb_prob, List.map, List.sum_cons, List.sum_nil,
      List.length_cons, List.length_nil]
    norm_num

/-- C1 witness: the amended combination rule at a concrete single-model
step with distribution `[1/2]`. -/
theorem C1_sum_of_logs_witness :
    (∀ p ∈ ([[[(1/2 : ℝ)]]] : List (List (List ℝ))).getD (0 / 1) [],
      p.getD (0 % 1) 0 ≠ 0) ∧
    (cand_score Real.log [(0 : ℝ)] [[[1/2]]] 1 0 =
      ([(0 : ℝ)] : List ℝ).getD (0 / 1) 0 -
        Real.log (((([[[(1/2 : ℝ)]]] : List (List (List ℝ))).getD (0 / 1)
          []).map (fun p => p.getD (0 % 1) 0)).prod) ∧
    comb_prob [[(1/2 : ℝ)], [(1/2 : ℝ)]] (0 % 1) =
      ([(1/2 : ℝ)] : List ℝ).getD (0 % 1) 0) := by
  have hpos : ∀ p ∈ ([[[(1/2 : ℝ)]]] : List (List (List ℝ))).getD (0 / 1) [],
      p.getD (0 % 1) 0 ≠ 0 := by
    intro p hp
    simp only [List.getD] at hp ⊢
    norm_num at hp
    subst hp
    norm_num
  exact ⟨hpos, C1_sum_of_logs [(0 : ℝ)] [[[1/2]]] 1 0 [(1/2 : ℝ)] hpos⟩

/-- C6 counterexample: with two identical models assigning probability 2/3
to token 1 and a parent cost of 1, the child's cost computed by the code is
`1 - 2*log(2/3)`, not the `1 - log(2/3)` that "parent cost minus the log of
the combined (arithmetic-mean) probability" prescribes. -/
theorem C6_counterexample :
    cand_score Real.log [(1 : ℝ)] [[[1/3, 2/3], [1/3, 2/3]]] 2 1 ≠
      (1 : ℝ) - Real.log (comb_prob [[(1/3 : ℝ), 2/3], [1/3, 2/3]] 1) := by
  intro h
  simp only [cand_score, sum_log_p, comb_prob, List.map, List.sum_cons,
    List.sum_nil] at h
  norm_num [List.getD] at h

/-- C6 (amended): each child hypothesis's cost equals its parent's cost
minus the sum over the models of the log-probability of the chosen token
(the log of the product of the models' probabilities), and when every
model's probability for the chosen token lies in (0, 1] the child's cost is
at least the parent's: cost is non-decreasing along any hypothesis's own
lineage. -/
theorem C6_cost_monotone (scores : List ℝ) (dists : List (List (List ℝ)))
    (V j : Nat)
    (hp : ∀ p ∈ dists.getD (j / V) [],
      0 < p.getD (j % V) 0 ∧ p.getD (j % V) 0 ≤ 1) :
    cand_score Real.log scores dists V j =
      scores.getD (j / V) 0 -
        Real.log (((dists.getD (j / V) []).map
          (fun p => p.getD (j % V) 0)).prod) ∧
    scores.getD (j / V) 0 ≤ cand_score Real.log scores dists V j := by
  have hne : ∀ p ∈ dists.getD (j / V) [], p.getD (j % V) 0 ≠ 0 :=
    fun p h => ne_of_gt (hp p h).1
  refine ⟨by rw [cand_score, sum_log_p_eq_log_prod _ _ hne], ?_⟩
  rw [cand_score]
  have hsum : sum_log_p Real.log (dists.getD (j / V) []) (j % V) ≤ 0 := by
    rw [sum_log_p]
    apply sum_nonpos_of_mem
    intro x hx
    obtain ⟨p, hpm, he⟩ := List.mem_map.mp hx
    rw [← he]
    exact Real.log_nonpos (hp p hpm).1.le (hp p hpm).2
  linarith

/-- C6 witness: cost monotonicity at a concrete single-model step with
probability 1/2 for the chosen token. -/
theorem C6_cost_monotone_witness :
    (∀ p ∈ ([[[(1/2 : ℝ)]]] : List (List (List ℝ))).getD (0 / 1) [],
      0 < p.getD (0 % 1) 0 ∧ p.getD (0 % 1) 0 ≤ 1) ∧
    (cand_score Real.log [(5 : ℝ)] [[[1/2]]] 1 0 =
      ([(5 : ℝ)] : List ℝ).getD (0 / 1) 0 -
        Real.log (((([[[(1/2 : ℝ)]]] : List (List (List ℝ))).getD (0 / 1)
          []).map (fun p => p.getD (0 % 1) 0)).prod) ∧
    ([(5 : ℝ)] : List ℝ).getD (0 / 1) 0 ≤
      cand_score Real.log [(5 : ℝ)] [[[1/2]]] 1 0) := by
  have hp : ∀ p ∈ ([[[(1/2 : ℝ)]]] : List (List (List ℝ))).getD (0 / 1) [],
      0 < p.getD (0 % 1) 0 ∧ p.getD (0 % 1) 0 ≤ 1 := by
    intro p hp
    simp only [List.getD] at hp ⊢
    norm_num at hp
    subst hp
    norm_num
  exact ⟨hp, C6_cost_monotone [(5 : ℝ)] [[[1/2]]] 1 0 hp⟩

/-- Reduction of `get_alignment_json` when a hypothesis id is present: the
match on `hypothesis_id` resolves to the sum `sentence_id + hypothesis_id`. -/
theorem get_alignment_json_eq_of_hyp {W : Type} (wstr : W → String)
    (t : Translation W) (hid : Nat) (h : t.hypothesis_id = some hid) :
    get_alignment_json wstr t =
      (t.alignment.enum.map (fun ta =>
        ta.2.enum.map (fun sw =>
          ((t.target_words ++ ["</s>"]).getD ta.1 "",
            (t.source_words ++ ["</s>"]).getD sw.1 "",
            wstr sw.2, t.sentence_id, t.sentence_id + hid)))).flatten := by
  simp only [get_alignment_json, h]

/-- C9 counterexample: a translation with `sentence_id = 5` and
`hypothesis_id = 2` produces links whose fifth element is `7 = 5 + 2`, not
the hypothesis id `2` the claim prescribes. -/
theorem C9_counterexample :
    get_alignment_json (fun _ => "w")
      ({ source_words := ["s"], target_words := ["t"], sentence_id := 5,
          hypothesis_id := some 2, alignment := [[0]] } : Translation Nat) =
      [("t", "s", "w", 5, 7)] ∧ (7 : Nat) ≠ 2 := by
  exact ⟨rfl, by decide⟩

/-- C9 (amended): for every `Translation` with a non-`None` hypothesis id,
`get_alignment_json` returns one tuple per (target position, source
position) pair of the alignment matrix, whose five elements are the target
token, the source token, the weight rendered as a string, the sentence id,
and the sum `sentence_id + hypothesis_id` (not the hypothesis id itself);
`"</s>"` is appended to both token sequences. -/
theorem C9_alignment_links {W : Type} (wstr : W → String) (t : Translation W)
    (hid : Nat) (h : t.hypothesis_id = some hid) :
    ((get_alignment_json wstr t).length =
      (t.alignment.map List.length).sum) ∧
    (∀ l ∈ get_alignment_json wstr t, ∃ ti si row w,
      t.alignment.get? ti = some row ∧ row.get? si = some w ∧
      l = ((t.target_words ++ ["</s>"]).getD ti "",
        (t.source_words ++ ["</s>"]).getD si "",
        wstr w, t.sentence_id, t.sentence_id + hid)) := by
  rw [get_alignment_json_eq_of_hyp wstr t hid h]
  constructor
  · rw [List.length_flatten, List.map_map]
    have hlen : (List.length ∘ fun ta : Nat × List W =>
        ta.2.enum.map (fun sw =>
          ((t.target_words ++ ["</s>"]).getD ta.1 "",
            (t.source_words ++ ["</s>"]).getD sw.1 "",
            wstr sw.2, t.sentence_id, t.sentence_id + hid))) =
        (fun ta : Nat × List W => ta.2.length) := by
      funext ta
      simp [List.enum_length]
    rw [hlen]
    have : (t.alignment.enum.map (fun ta : Nat × List W => ta.2.length)) =
        t.alignment.map List.length := by
      have := List.enum_map_snd t.alignment
      calc t.alignment.enum.map (fun ta : Nat × List W => ta.2.length)
          = (t.alignment.enum.map Prod.snd).map List.length := by
            rw [List.map_map]; rfl
        _ = t.alignment.map List.length := by rw [List.enum_map_snd]
    rw [this]
  · intro l hl
    obtain ⟨s, hs, hls⟩ := List.mem_flatten.mp hl
    obtain ⟨ta, hta, rfl⟩ := List.mem_map.mp hs
    obtain ⟨sw, hsw, rfl⟩ := List.mem_map.mp hls
    refine ⟨ta.1, sw.1, ta.2, sw.2, ?_, ?_, rfl⟩
    · rw [List.get?_eq_getElem?]
      exact List.mem_enum_iff_getElem?.mp hta
    · rw [List.get?_eq_getElem?]
      exact List.mem_enum_iff_getElem?.mp hsw

/-- C9 witness: the amended statement at a concrete translation with
`sentence_id = 5` and `hypothesis_id = 2`. -/
theorem C9_alignment_links_witness :
    ((⟨["s"], ["t"], 5, some 2, [[3]]⟩ :
      Translation Nat).hypothesis_id = some 2) ∧
    ((get_alignment_json (fun _ => "w")
      (⟨["s"], ["t"], 5, some 2, [[3]]⟩ : Translation Nat)).length =
      ((⟨["s"], ["t"], 5, some 2, [[3]]⟩ :
        Translation Nat).alignment.map List.length).sum) ∧
    (∀ l ∈ get_alignment_json (fun _ => "w")
      (⟨["s"], ["t"], 5, some 2, [[3]]⟩ : Translation Nat),
      ∃ ti si row w,
      (⟨["s"], ["t"], 5, some 2, [[3]]⟩ :
        Translation Nat).alignment.get? ti = some row ∧
      row.get? si = some w ∧
      l = (((⟨["s"], ["t"], 5, some 2, [[3]]⟩ :
          Translation Nat).target_words ++ ["</s>"]).getD ti "",
        (((⟨["s"], ["t"], 5, some 2, [[3]]⟩ :
          Translation Nat)).source_words ++ ["</s>"]).getD si "",
        (fun (_ : Nat) => "w") w,
        (⟨["s"], ["t"], 5, some 2, [[3]]⟩ : Translation Nat).sentence_id,
        (⟨["s"], ["t"], 5, some 2, [[3]]⟩ :
          Translation Nat).sentence_id + 2)) := by
  refine ⟨rfl, ?_⟩
  exact C9_alignment_links (fun _ => "w")
    (⟨["s"], ["t"], 5, some 2, [[3]]⟩ : Translation Nat) 2 rfl

/-- C8: whenever the coordinator's timeout poll observes some worker that is
no longer alive and has a non-zero exit code, the outcome is fatal: the
poll reports a crashed worker's pid and exit code, terminates every worker
process, exits with the non-zero status 1, and does not resume waiting for
results. -/
theorem C8_crash_is_fatal (procs : List WorkerObs)
    (h : ∃ w ∈ procs, crashed w = true) :
    ∃ w, w ∈ procs ∧ crashed w = true ∧
      timeout_poll procs =
        PollOutcome.fatal w.pid w.exitcode (procs.map WorkerObs.pid) 1 ∧
      timeout_poll procs ≠ PollOutcome.wait ∧ (1 : Nat) ≠ 0 := by
  have hs : (procs.find? crashed).isSome := by
    rw [List.find?_isSome]
    obtain ⟨w, hw, hc⟩ := h
    exact ⟨w, hw, hc⟩
  obtain ⟨w, hw⟩ := Option.isSome_iff_exists.mp hs
  refine ⟨w, List.mem_of_find?_eq_some hw, List.find?_some hw, ?_, ?_,
    by decide⟩
  · rw [timeout_poll, hw]
  · rw [timeout_poll, hw]
    intro hcon
    cases hcon

/-- C8 witness: the crash handling at a concrete pool of two workers, the
second of which has exited with code 1. -/
theorem C8_crash_is_fatal_witness :
    (∃ w ∈ ([⟨3, true, 0⟩, ⟨4, false, 1⟩] : List WorkerObs),
      crashed w = true) ∧
    (∃ w, w ∈ ([⟨3, true, 0⟩, ⟨4, false, 1⟩] : List WorkerObs) ∧
      crashed w = true ∧
      timeout_poll [⟨3, true, 0⟩, ⟨4, false, 1⟩] =
        PollOutcome.fatal w.pid w.exitcode
          (([⟨3, true, 0⟩, ⟨4, false, 1⟩] : List WorkerObs).map
            WorkerObs.pid) 1 ∧
      timeout_poll [⟨3, true, 0⟩, ⟨4, false, 1⟩] ≠ PollOutcome.wait ∧
      (1 : Nat) ≠ 0) := by
  have h : ∃ w ∈ ([⟨3, true, 0⟩, ⟨4, false, 1⟩] : List WorkerObs),
      crashed w = true := ⟨⟨4, false, 1⟩, by simp, by decide⟩
  exact ⟨h, C8_crash_is_fatal [⟨3, true, 0⟩, ⟨4, false, 1⟩] h⟩

/-- The minimum tracker of `argmin_aux` returns a value no larger than the
running best and than every scanned element, and an index that is either
the running best index or inside the scanned range. -/
theorem argmin_aux_spec {R : Type} [LinearOrder R] :
    ∀ (xs : List R) (best : R) (bi cur : Nat),
      ((argmin_aux xs best bi cur).1 ≤ best ∧
        (∀ y ∈ xs, (argmin_aux xs best bi cur).1 ≤ y)) ∧
      ((argmin_aux xs best bi cur).2 = bi ∨
        (cur ≤ (argmin_aux xs best bi cur).2 ∧
          (argmin_aux xs best bi cur).2 < cur + xs.length)) := by
  intro xs
  induction xs with
  | nil =>
    intro best bi cur
    simp [argmin_aux]
  | cons x xs ih =>
    intro best bi cur
    rw [argmin_aux]
    by_cases hx : x < best
    · rw [if_pos hx]
      obtain ⟨⟨h1, h2⟩, h3⟩ := ih x cur (cur + 1)
      refine ⟨⟨h1.trans hx.le, ?_⟩, ?_⟩
      · intro y hy
        rcases List.mem_cons.mp hy with rfl | hy
        · exact h1
        · exact h2 y hy
      · rcases h3 with h3 | ⟨h3a, h3b⟩
        · right
          rw [h3]
          simp only [List.length_cons]
          omega
        · right
          simp only [List.length_cons]
          omega
    · rw [if_neg hx]
      push_neg at hx
      obtain ⟨⟨h1, h2⟩, h3⟩ := ih best bi (cur + 1)
      refine ⟨⟨h1, ?_⟩, ?_⟩
      · intro y hy
        rcases List.mem_cons.mp hy with rfl | hy
        · exact h1.trans hx
        · exact h2 y hy
      · rcases h3 with h3 | ⟨h3a, h3b⟩
        · left
          exact h3
        · right
          simp only [List.length_cons]
          omega

/-- The index returned by `argmin_aux` points at the value it returns,
whenever the running best index does and the scan offset is coherent with
the underlying list. -/
theorem argmin_aux_getD {R : Type} [LinearOrder R] :
    ∀ (xs : List R) (best : R) (bi cur : Nat) (l : List R) (d : R),
      l.getD bi d = best →
      (∀ p, p < xs.length → l.getD (cur + p) d = xs.getD p d) →
      l.getD (argmin_aux xs best bi cur).2 d = (argmin_aux xs best bi cur).1 := by
  intro xs
  induction xs with
  | nil =>
    intro best bi cur l d hbi _
    simpa [argmin_aux] using hbi
  | cons x xs ih =>
    intro best bi cur l d hbi hcur
    rw [argmin_aux]
    by_cases hx : x < best
    · rw [if_pos hx]
      apply ih x cur (cur + 1) l d
      · have h0 := hcur 0 (by simp)
        simpa using h0
      · intro p hp
        have := hcur (p + 1) (by simp; omega)
        rw [show cur + (p + 1) = cur + 1 + p by omega] at this
        simpa using this
    · rw [if_neg hx]
      apply ih best bi (cur + 1) l d hbi
      intro p hp
      have := hcur (p + 1) (by simp; omega)
      rw [show cur + (p + 1) = cur + 1 + p by omega] at this
      simpa using this

/-- On a nonempty list, `idx_of_min` is a valid index attaining the minimum
of the list. -/
theorem idx_of_min_spec {R : Type} [LinearOrder R] (x : R) (xs : List R)
    (d : R) :
    idx_of_min (x :: xs) < (x :: xs).length ∧
      ∀ j < (x :: xs).length,
        (x :: xs).getD (idx_of_min (x :: xs)) d ≤ (x :: xs).getD j d := by
  have hspec := argmin_aux_spec xs x 0 1
  have hval : (x :: xs).getD (argmin_aux xs x 0 1).2 d =
      (argmin_aux xs x 0 1).1 := by
    apply argmin_aux_getD xs x 0 1 (x :: xs) d
    · rfl
    · intro p hp
      rw [show 1 + p = p + 1 by omega]
      rfl
  constructor
  · show (argmin_aux xs x 0 1).2 < (x :: xs).length
    rcases hspec.2 with h | ⟨h1, h2⟩
    · rw [h]
      simp
    · simp only [List.length_cons]
      omega
  · intro j hj
    show (x :: xs).getD (argmin_aux xs x 0 1).2 d ≤ _
    rw [hval]
    match j with
    | 0 => exact hspec.1.1
    | p + 1 =>
      have hp : p < xs.length := by
        simp only [List.length_cons] at hj
        omega
      have hmem : xs.getD p d ∈ xs := by
        rw [List.getD_eq_getElem xs d hp]
        exact List.getElem_mem hp
      have := hspec.1.2 (xs.getD p d) hmem
      simpa using this

/-- C10: with a nonzero normalization alpha, `_translate` with `nbest`
false normalizes every finished hypothesis's score by dividing it by
`len(sample) ** alpha`, and returns the hypothesis at the first position
minimizing the normalized score, together with that same position's word
probabilities and its alignment from every source's alignment list; the
returned normalized score is minimal among all normalized scores. -/
theorem C10_single_best {A : Type} (alpha : ℝ) (samples : List (List Nat))
    (scores : List ℝ) (wps : List (List ℝ)) (aligns : List (List A))
    (a0 : A) (h0 : alpha ≠ 0) (hne : scores ≠ [])
    (hlen : samples.length = scores.length) :
    (adjusted_scores alpha (fun n a => (n : ℝ) ^ a) samples scores =
      List.zipWith (fun sc (sa : List Nat) => sc / (sa.length : ℝ) ^ alpha)
        scores samples) ∧
    (translate_best alpha (fun n a => (n : ℝ) ^ a) samples scores wps aligns
        a0 =
      (samples.getD
        (idx_of_min (adjusted_scores alpha (fun n a => (n : ℝ) ^ a) samples
          scores)) [],
       (adjusted_scores alpha (fun n a => (n : ℝ) ^ a) samples scores).getD
        (idx_of_min (adjusted_scores alpha (fun n a => (n : ℝ) ^ a) samples
          scores)) 0,
       wps.getD
        (idx_of_min (adjusted_scores alpha (fun n a => (n : ℝ) ^ a) samples
          scores)) [],
       aligns.map (fun al => al.getD
        (idx_of_min (adjusted_scores alpha (fun n a => (n : ℝ) ^ a) samples
          scores)) a0))) ∧
    (idx_of_min (adjusted_scores alpha (fun n a => (n : ℝ) ^ a) samples
      scores) < scores.length) ∧
    (∀ j < (adjusted_scores alpha (fun n a => (n : ℝ) ^ a) samples
        scores).length,
      (adjusted_scores alpha (fun n a => (n : ℝ) ^ a) samples scores).getD
        (idx_of_min (adjusted_scores alpha (fun n a => (n : ℝ) ^ a) samples
          scores)) 0 ≤
      (adjusted_scores alpha (fun n a => (n : ℝ) ^ a) samples scores).getD
        j 0) := by
  have hadj : adjusted_scores alpha (fun n a => (n : ℝ) ^ a) samples scores =
      List.zipWith (fun sc (sa : List Nat) => sc / (sa.length : ℝ) ^ alpha)
        scores samples := by
    rw [adjusted_scores, if_neg h0]
  have hlena : (adjusted_scores alpha (fun n a => (n : ℝ) ^ a) samples
      scores).length = scores.length := by
    rw [hadj, List.length_zipWith]
    omega
  obtain ⟨y, ys, hys⟩ : ∃ y ys, adjusted_scores alpha
      (fun n a => (n : ℝ) ^ a) samples scores = y :: ys := by
    cases hcase : adjusted_scores alpha (fun n a => (n : ℝ) ^ a) samples
        scores with
    | nil =>
      rw [hcase] at hlena
      exact absurd (List.length_eq_zero.mp hlena.symm) hne
    | cons y ys => exact ⟨y, ys, rfl⟩
  have hspec := idx_of_min_spec y ys (0 : ℝ)
  rw [← hys] at hspec
  refine ⟨hadj, rfl, ?_, ?_⟩
  · rw [← hlena]
    rw [hys] at hspec ⊢
    exact hspec.1
  · intro j hj
    exact hspec.2 j hj

/-- C10 witness: the single-best selection at a concrete job with two
finished hypotheses and `alpha = 1`. -/
theorem C10_single_best_witness :
    ((1 : ℝ) ≠ 0) ∧ (([4, 6] : List ℝ) ≠ []) ∧
    (([[1, 0], [0]] : List (List Nat)).length = ([4, 6] : List ℝ).length) ∧
    (translate_best (1 : ℝ) (fun n a => (n : ℝ) ^ a) [[1, 0], [0]] [4, 6]
        [[1], [1]] [[10, 20]] 0 =
      (([[1, 0], [0]] : List (List Nat)).getD
        (idx_of_min (adjusted_scores (1 : ℝ) (fun n a => (n : ℝ) ^ a)
          [[1, 0], [0]] [4, 6])) [],
       (adjusted_scores (1 : ℝ) (fun n a => (n : ℝ) ^ a) [[1, 0], [0]]
          [4, 6]).getD
        (idx_of_min (adjusted_scores (1 : ℝ) (fun n a => (n : ℝ) ^ a)
          [[1, 0], [0]] [4, 6])) 0,
       ([[1], [1]] : List (List ℝ)).getD
        (idx_of_min (adjusted_scores (1 : ℝ) (fun n a => (n : ℝ) ^ a)
          [[1, 0], [0]] [4, 6])) [],
       ([[10, 20]] : List (List Nat)).map (fun al => al.getD
        (idx_of_min (adjusted_scores (1 : ℝ) (fun n a => (n : ℝ) ^ a)
          [[1, 0], [0]] [4, 6])) 0))) := by
  have h := C10_single_best 1 [[1, 0], [0]] [4, 6] [[1], [1]]
    [[10, 20]] (0 : Nat) (by norm_num) (by simp) rfl
  exact ⟨by norm_num, by simp, rfl, h.2.1⟩

/-- Looking up a key absent from an association list yields `none`. -/
theorem lookup_eq_none_of_not_mem {α : Type} :
    ∀ (d : List (Nat × α)) (i : Nat), i ∉ d.map Prod.fst →
      d.lookup i = none := by
  intro d
  induction d with
  | nil =>
    intro i _
    rfl
  | cons p d ih =>
    intro i hi
    obtain ⟨k, b⟩ := p
    simp only [List.map_cons, List.mem_cons] at hi
    push_neg at hi
    have hne : (i == k) = false := by
      simp [hi.1]
    simp only [List.lookup, hne]
    exact ih i hi.2

/-- In an association list with distinct keys, lookup finds the unique
entry for its key. -/
theorem lookup_of_key_nodup {α : Type} :
    ∀ (d : List (Nat × α)) (i : Nat) (x : α),
      (d.map Prod.fst).Nodup → (i, x) ∈ d → d.lookup i = some x := by
  intro d
  induction d with
  | nil =>
    intro i x _ hmem
    simp at hmem
  | cons p d ih =>
    intro i x hnd hmem
    obtain ⟨k, b⟩ := p
    simp only [List.map_cons, List.nodup_cons] at hnd
    rcases List.mem_cons.mp hmem with he | hmem'
    · obtain ⟨rfl, rfl⟩ := Prod.mk.injEq .. |>.mp he.symm |>.imp Eq.symm Eq.symm
      simp [List.lookup]
    · have hik : i ≠ k := by
        intro he
        subst he
        exact hnd.1 (List.mem_map.mpr ⟨(i, x), hmem', rfl⟩)
      have hne : (i == k) = false := by
        simp [hik]
      simp only [List.lookup, hne]
      exact ih i x hnd.2 hmem'

/-- Inserting a fresh key appends the new binding at the end. -/
theorem dict_insert_not_mem {α : Type} (d : List (Nat × α)) (i : Nat) (x : α)
    (h : i ∉ d.map Prod.fst) : dict_insert d i x = d ++ [(i, x)] := by
  rw [dict_insert, lookup_eq_none_of_not_mem d i h]
  simp

/-- The receive loop, fed only messages for request `rid` carrying
`f`-consistent payloads with fresh in-range indices that complete the
buffer, terminates with a full, duplicate-free, `f`-consistent buffer for
`rid`. -/
theorem retrieve_loop_spec {α : Type} (n rid : Nat) (f : Nat → α) :
    ∀ (msgs : List (Nat × Nat × α)) (buf : Nat → List (Nat × α)),
      (∀ m ∈ msgs, m.1 = rid) →
      (∀ m ∈ msgs, m.2.2 = f m.2.1) →
      (∀ m ∈ msgs, m.2.1 < n) →
      (∀ p ∈ buf rid, p.2 = f p.1 ∧ p.1 < n) →
      ((buf rid).map Prod.fst ++ msgs.map (fun m => m.2.1)).Nodup →
      (buf rid).length + msgs.length = n →
      ∃ buf', retrieve_loop n msgs buf rid = some (buf', rid) ∧
        (buf' rid).length = n ∧
        ((buf' rid).map Prod.fst).Nodup ∧
        (∀ p ∈ buf' rid, p.2 = f p.1 ∧ p.1 < n) := by
  intro msgs
  induction msgs with
  | nil =>
    intro buf _ _ _ h4 h5 h6
    simp only [List.length_nil] at h6
    refine ⟨buf, ?_, by omega, ?_, h4⟩
    · rw [retrieve_loop, if_pos (by omega)]
    · simpa using h5
  | cons msg rest ih =>
    intro buf h1 h2 h3 h4 h5 h6
    obtain ⟨r, i, x⟩ := msg
    have hr : r = rid := h1 (r, i, x) (by simp)
    have hx : x = f i := h2 (r, i, x) (by simp)
    have hi : i < n := h3 (r, i, x) (by simp)
    subst hr
    subst hx
    simp only [List.length_cons] at h6
    have hkey : i ∉ (buf r).map Prod.fst := by
      simp only [List.map_cons] at h5
      have hdisj := (List.nodup_append.mp h5).2.2
      intro hmem
      exact hdisj hmem (by simp)
    have hbuf' : (buf_insert buf r i (f i)) r =
        buf r ++ [(i, f i)] := by
      simp [buf_insert, dict_insert_not_mem (buf r) i (f i) hkey]
    rw [retrieve_loop, if_neg (by omega)]
    apply ih (buf_insert buf r i (f i))
    · intro m hm
      exact h1 m (by simp [hm])
    · intro m hm
      exact h2 m (by simp [hm])
    · intro m hm
      exact h3 m (by simp [hm])
    · intro p hp
      rw [hbuf'] at hp
      rcases List.mem_append.mp hp with hp | hp
      · exact h4 p hp
      · simp only [List.mem_singleton] at hp
        subst hp
        exact ⟨rfl, hi⟩
    · rw [hbuf']
      simp only [List.map_cons] at h5
      rw [List.map_append]
      have hassoc : ((buf r).map Prod.fst ++ [(i, f i)].map Prod.fst) ++
          rest.map (fun m => m.2.1) =
          (buf r).map Prod.fst ++ (i :: rest.map (fun m => m.2.1)) := by
        rw [List.append_assoc]
        rfl
      rw [hassoc]
      exact h5
    · rw [hbuf']
      simp only [List.length_append, List.length_singleton]
      omega

/-- A duplicate-free list of `n` naturals below `n` contains every natural
below `n`. -/
theorem mem_of_nodup_length_lt {L : List Nat} {n : Nat} (hnd : L.Nodup)
    (hlt : ∀ k ∈ L, k < n) (hlen : L.length = n) :
    ∀ i < n, i ∈ L := by
  intro i hi
  have hsub : L.toFinset ⊆ Finset.range n := by
    intro k hk
    rw [Finset.mem_range]
    exact hlt k (List.mem_toFinset.mp hk)
  have hcard : L.toFinset.card = n := by
    rw [List.toFinset_card_of_nodup hnd, hlen]
  have heq : L.toFinset = Finset.range n := by
    apply Finset.eq_of_subset_of_card_le hsub
    rw [Finset.card_range, hcard]
  have : i ∈ L.toFinset := by
    rw [heq, Finset.mem_range]
    exact hi
  exact List.mem_toFinset.mp this

/-- C7: when the output queue delivers exactly one result per sequence
index `0, ..., n - 1` of request `rid` — in any arrival order —
`_retrieve_jobs` buffers them by request id and sequence index, yields them
in original submission order `0, 1, ..., n - 1`, and evicts the request's
buffer entry afterwards. -/
theorem C7_ordered_delivery {α : Type} (n rid : Nat) (f : Nat → α)
    (msgs : List (Nat × Nat × α))
    (hperm : msgs.Perm ((List.range n).map (fun i => (rid, i, f i)))) :
    ∃ bufE, retrieve_jobs n msgs rid =
        some ((List.range n).map (fun i => some (f i)), bufE) ∧
      bufE rid = [] := by
  have hmem : ∀ m ∈ msgs, m ∈ (List.range n).map (fun i => (rid, i, f i)) :=
    fun m hm => hperm.mem_iff.mp hm
  have h1 : ∀ m ∈ msgs, m.1 = rid := by
    intro m hm
    obtain ⟨i, _, rfl⟩ := List.mem_map.mp (hmem m hm)
    rfl
  have h2 : ∀ m ∈ msgs, m.2.2 = f m.2.1 := by
    intro m hm
    obtain ⟨i, _, rfl⟩ := List.mem_map.mp (hmem m hm)
    rfl
  have h3 : ∀ m ∈ msgs, m.2.1 < n := by
    intro m hm
    obtain ⟨i, hi, rfl⟩ := List.mem_map.mp (hmem m hm)
    simpa using List.mem_range.mp hi
  have hlen : msgs.length = n := by
    rw [hperm.length_eq, List.length_map, List.length_range]
  have hidx : (msgs.map (fun m => m.2.1)).Perm (List.range n) := by
    have hmp := hperm.map (fun m : Nat × Nat × α => m.2.1)
    rw [List.map_map] at hmp
    have he : ((fun m : Nat × Nat × α => m.2.1) ∘ fun i => (rid, i, f i)) =
        fun i => i := rfl
    rw [he] at hmp
    simpa using hmp
  have hnd : (msgs.map (fun m => m.2.1)).Nodup :=
    hidx.nodup_iff.mpr (List.nodup_range n)
  obtain ⟨buf', hloop, hblen, hbnd, hbf⟩ :=
    retrieve_loop_spec n rid f msgs (fun _ => []) h1 h2 h3
      (by intro p hp; simp at hp) (by simpa using hnd) (by simpa using hlen)
  have hkeys : ∀ i < n, i ∈ (buf' rid).map Prod.fst := by
    apply mem_of_nodup_length_lt hbnd
    · intro k hk
      obtain ⟨p, hp, rfl⟩ := List.mem_map.mp hk
      exact (hbf p hp).2
    · rw [List.length_map, hblen]
  have hlook : ∀ i < n, (buf' rid).lookup i = some (f i) := by
    intro i hi
    obtain ⟨p, hp, hp1⟩ := List.mem_map.mp (hkeys i hi)
    have hpv := (hbf p hp).1
    have : (i, f i) ∈ buf' rid := by
      have : p = (i, f i) := by
        obtain ⟨p1, p2⟩ := p
        simp only at hp1 hpv
        subst hp1
        rw [hpv]
      rw [← this]
      exact hp
    exact lookup_of_key_nodup (buf' rid) i (f i) hbnd this
  refine ⟨buf_erase buf' rid, ?_, by simp [buf_erase]⟩
  have hmap : (List.range n).map (fun i => (buf' rid).lookup i) =
      (List.range n).map (fun i => some (f i)) := by
    apply List.map_congr_left
    intro i hi
    exact hlook i (List.mem_range.mp hi)
  rw [retrieve_jobs, hloop]
  show some ((List.range n).map (fun i => (buf' rid).lookup i),
      buf_erase buf' rid) =
    some ((List.range n).map (fun i => some (f i)), buf_erase buf' rid)
  rw [hmap]

/-- C7 witness: two results of request 7 arriving in reversed order are
yielded in index order and the buffer entry is evicted. -/
theorem C7_ordered_delivery_witness :
    (([(7, 1, 11), (7, 0, 10)] : List (Nat × Nat × Nat)).Perm
      ((List.range 2).map (fun i => (7, i, i + 10)))) ∧
    (∃ bufE, retrieve_jobs 2 [(7, 1, 11), (7, 0, 10)] 7 =
        some ((List.range 2).map (fun i => some (i + 10)), bufE) ∧
      bufE 7 = []) := by
  have hperm : ([(7, 1, 11), (7, 0, 10)] : List (Nat × Nat × Nat)).Perm
      ((List.range 2).map (fun i => (7, i, i + 10))) := by
    decide
  exact ⟨hperm, C7_ordered_delivery 2 7 (fun i => i + 10)
    [(7, 1, 11), (7, 0, 10)] hperm⟩

end Nematus
